import Mathlib

/-!
Verification of `src/linguist/lupdate/synchronized.h`

A shallow embedding of the two class templates `WriteSynchronizedRef<T>` and
`ReadSynchronizedRef<T>`.

Modelling conventions:

* A `std::vector<T>` object lives at an address; the memory is a map from
  addresses to the current contents (a `List T`) of the vector stored there.
  Both classes keep a C++ reference `std::vector<T> &m_vector`, i.e. an
  address that is fixed by the constructor.
* `int` is 32 bits wide and wraps (atomic `fetch_add` on a signed integer is
  defined as two's complement wrap-around); `size_t` is 64 bits wide.
  Converting an `int` to `size_t` reduces it modulo `2 ^ 64`; converting a
  `size_t` to `int` reduces it modulo `2 ^ 32` into the signed range.
* `QMutexLocker lock(&m_mutex)` makes the body of each writer member one
  critical section.  The sequential functions below describe the effect of
  one such section; the interleaving model `WriteSystem` carries the mutex itself.
-/

/-! ## Memory -/

/-- Address of a `std::vector<T>` object. -/
abbrev Addr := Nat

/-- Contents of every `std::vector<T>` object, by address. -/
abbrev Heap (T : Type) := Addr → List T

/-- Overwrite the vector stored at address `a`. -/
def Heap.store {T : Type} (h : Heap T) (a : Addr) (v : List T) : Heap T :=
  fun b => if b = a then v else h b

/-! ## Machine integers -/

/-- Reduce an integer to the range of a 32-bit signed `int`. -/
def wrapInt32 (x : Int) : Int := (x + 2 ^ 31) % 2 ^ 32 - 2 ^ 31

/-- Conversion of an `int` to the 64-bit unsigned `size_t`. -/
def toSizeT (x : Int) : Nat := (x % 2 ^ 64).toNat

/-- Upper bound on `std::vector<T>::max_size()` with a 64-bit `size_t`. -/
def max_size : Nat := 2 ^ 63 - 1

/-! ## `WriteSynchronizedRef<T>` -/

/-- The writer: `std::vector<T> &m_vector` (the mutex is handled by the
critical-section reading of each member function). -/
structure WriteSynchronizedRef where
  m_vector : Addr
deriving DecidableEq, Repr

/-- Constructor `WriteSynchronizedRef(std::vector<T> &vector)`. -/
def WriteSynchronizedRef.ctor (vector : Addr) : WriteSynchronizedRef :=
  { m_vector := vector }

/-- Member `void emplace_back(T && value)`:
`m_vector.emplace_back(value)` under the lock. -/
def WriteSynchronizedRef.emplace_back_rvalue {T : Type}
    (w : WriteSynchronizedRef) (value : T) (h : Heap T) : Heap T :=
  h.store w.m_vector (h w.m_vector ++ [value])

/-- Member `void emplace_back(const T &value)`:
`m_vector.emplace_back(value)` under the lock. -/
def WriteSynchronizedRef.emplace_back_cref {T : Type}
    (w : WriteSynchronizedRef) (value : T) (h : Heap T) : Heap T :=
  h.store w.m_vector (h w.m_vector ++ [value])

/-- Member `void emplace_bulk(std::vector<T> && values)`: when the bound vector
is not empty the batch is inserted at `m_vector.end()`, otherwise the batch is
move-assigned to the bound vector.  The batch is an rvalue, a vector of its
own, given here by its contents. -/
def WriteSynchronizedRef.emplace_bulk {T : Type}
    (w : WriteSynchronizedRef) (values : List T) (h : Heap T) : Heap T :=
  if !(h w.m_vector).isEmpty then
    h.store w.m_vector (h w.m_vector ++ values)
  else
    h.store w.m_vector values

/-! ## `ReadSynchronizedRef<T>` -/

/-- The reader: `std::vector<T> &m_vector` and `std::atomic<int> m_next`. -/
structure ReadSynchronizedRef where
  m_vector : Addr
  m_next : Int
deriving DecidableEq, Repr

/-- Constructor `ReadSynchronizedRef(const std::vector<T> &vector)`; the member
initialiser of `m_next` is `-1`. -/
def ReadSynchronizedRef.ctor (vector : Addr) : ReadSynchronizedRef :=
  { m_vector := vector, m_next := -1 }

/-- Member `int size() const`: `int(m_vector.size())`. -/
def ReadSynchronizedRef.size {T : Type} (r : ReadSynchronizedRef) (h : Heap T) : Int :=
  wrapInt32 ((h r.m_vector).length : Int)

/-- Member `void reset(const std::vector<T> &vector)`: `m_next = -1;` and then
`m_vector = const_cast<std::vector<T> &>(vector);`.  `m_vector` is a C++
reference, so the assignment is a copy assignment to the vector it was bound to
by the constructor; the reference itself cannot be reseated. -/
def ReadSynchronizedRef.reset {T : Type} (r : ReadSynchronizedRef) (vector : Addr)
    (h : Heap T) : ReadSynchronizedRef × Heap T :=
  ({ r with m_next := -1 }, h.store r.m_vector (h vector))

/-- Member `bool next(T *value) const` for a single caller.  The argument
`value` is the content of the output location before the call; the result is
the reader afterwards, the content of the output location afterwards and the
returned flag. -/
def ReadSynchronizedRef.next {T : Type} (r : ReadSynchronizedRef) (value : T)
    (h : Heap T) : ReadSynchronizedRef × T × Bool :=
  let r1 : ReadSynchronizedRef := { r with m_next := wrapInt32 (r.m_next + 1) }
  if hasNext : toSizeT r1.m_next < (h r1.m_vector).length then
    (r1, (h r1.m_vector)[toSizeT r1.m_next], true)
  else
    (r1, value, false)

/-- The reader after `n` successive calls of `next` by a single caller. -/
def ReadSynchronizedRef.afterCalls {T : Type} (h : Heap T) (value : T) :
    Nat → ReadSynchronizedRef → ReadSynchronizedRef
  | 0, r => r
  | n + 1, r => ReadSynchronizedRef.afterCalls h value n (r.next value h).1

/-- The outcome (output location, returned flag) of call number `k + 1` of
`next` made on the reader `r`, counting from the state `r`. -/
def ReadSynchronizedRef.nthCall {T : Type} (h : Heap T) (value : T)
    (r : ReadSynchronizedRef) (k : Nat) : T × Bool :=
  ((ReadSynchronizedRef.afterCalls h value k r).next value h).2

/-! ## Concurrent callers of `next`

`next` performs three separate accesses to the atomic `m_next`: the
`fetch_add` (whose result is discarded), the load in
`m_next < m_vector.size()` and the load in `m_vector[m_next]`.  Each access is
one atomic step; steps of different threads interleave. -/

/-- Where a thread stands inside one call of `next`. -/
inductive NextPc where
  /-- before `m_next.fetch_add(1, std::memory_order_acquire)` -/
  | fetchAdd
  /-- before `const bool hasNext = m_next < m_vector.size()` -/
  | boundsTest
  /-- `hasNext` is true, before `*value = m_vector[m_next]` -/
  | elementRead
  /-- returned true after copying the element at `index` -/
  | returnedTrue (index : Nat)
  /-- returned false -/
  | returnedFalse
  /-- evaluated `m_vector[index]` with `index` not below the size -/
  | outOfRange (index : Nat)
deriving DecidableEq, Repr

/-- One thread calling `next`: its position and the content of its output
location `*value`. -/
structure NextThread (T : Type) where
  pc : NextPc
  value : T
deriving DecidableEq, Repr

/-- A reader shared by several threads: the atomic cursor and the threads. -/
structure NextSystem (T : Type) where
  m_next : Int
  threads : List (NextThread T)
deriving DecidableEq, Repr

/-- All `M` threads are about to call `next` on a freshly constructed reader. -/
def NextSystem.init {T : Type} (M : Nat) (value : T) : NextSystem T :=
  { m_next := -1, threads := List.replicate M { pc := NextPc.fetchAdd, value := value } }

/-- Thread `tid` performs its next atomic step over the stable vector `s`. -/
def NextSystem.step {T : Type} (s : List T) (sys : NextSystem T) (tid : Nat) :
    NextSystem T :=
  match sys.threads[tid]? with
  | none => sys
  | some t =>
    match t.pc with
    | NextPc.fetchAdd =>
      { m_next := wrapInt32 (sys.m_next + 1),
        threads := sys.threads.set tid { t with pc := NextPc.boundsTest } }
    | NextPc.boundsTest =>
      if toSizeT sys.m_next < s.length then
        { sys with threads := sys.threads.set tid { t with pc := NextPc.elementRead } }
      else
        { sys with threads := sys.threads.set tid { t with pc := NextPc.returnedFalse } }
    | NextPc.elementRead =>
      match s[toSizeT sys.m_next]? with
      | some x =>
        { sys with threads :=
            sys.threads.set tid { pc := NextPc.returnedTrue (toSizeT sys.m_next), value := x } }
      | none =>
        { sys with threads :=
            sys.threads.set tid { t with pc := NextPc.outOfRange (toSizeT sys.m_next) } }
    | _ => sys

/-- Run the threads in the order given by `schedule`. -/
def NextSystem.run {T : Type} (s : List T) (sys : NextSystem T) (schedule : List Nat) :
    NextSystem T :=
  schedule.foldl (NextSystem.step s) sys

/-- The indices delivered by the calls that returned true, by thread. -/
def NextSystem.delivered {T : Type} (sys : NextSystem T) : List Nat :=
  sys.threads.filterMap fun t =>
    match t.pc with
    | NextPc.returnedTrue i => some i
    | _ => none

/-! ## Concurrent callers of `emplace_back`

Each call is `QMutexLocker lock(&m_mutex); m_vector.emplace_back(value);`
followed by the release of the mutex when `lock` goes out of scope. -/

/-- Where a thread stands inside one call of `emplace_back`. -/
inductive WritePc where
  /-- outside a call, or blocked in the constructor of `QMutexLocker` -/
  | idle
  /-- holds the mutex, before `m_vector.emplace_back(value)` -/
  | locked
  /-- has appended, before the destructor of `QMutexLocker` -/
  | appended
deriving DecidableEq, Repr

/-- One writer thread: its position and the values it still has to pass to
`emplace_back`, the head being the argument of the current call. -/
structure WriteThread (T : Type) where
  pc : WritePc
  todo : List T
deriving DecidableEq, Repr

/-- A writer shared by several threads: the mutex (with its holder), the
contents of the bound vector and the threads. -/
structure WriteSystem (T : Type) where
  m_mutex : Option Nat
  m_vector : List T
  threads : List (WriteThread T)
deriving DecidableEq, Repr

/-- The bound vector holds `prior`; thread `i` is going to call `emplace_back`
with each value of `batches[i]` in turn. -/
def WriteSystem.init {T : Type} (prior : List T) (batches : List (List T)) :
    WriteSystem T :=
  { m_mutex := none, m_vector := prior,
    threads := batches.map fun b => { pc := WritePc.idle, todo := b } }

/-- Thread `tid` performs its next step; `none` when it cannot move (it has no
call left, or it waits for the mutex). -/
def WriteSystem.step {T : Type} (sys : WriteSystem T) (tid : Nat) :
    Option (WriteSystem T) :=
  match sys.threads[tid]? with
  | none => none
  | some t =>
    match t.pc, t.todo with
    | _, [] => none
    | WritePc.idle, _ :: _ =>
      if sys.m_mutex = none then
        some { sys with m_mutex := some tid,
                        threads := sys.threads.set tid { t with pc := WritePc.locked } }
      else none
    | WritePc.locked, value :: _ =>
      some { sys with m_vector := sys.m_vector ++ [value],
                      threads := sys.threads.set tid { t with pc := WritePc.appended } }
    | WritePc.appended, _ :: rest =>
      some { sys with m_mutex := none,
                      threads := sys.threads.set tid { pc := WritePc.idle, todo := rest } }

/-- Run the threads in the order given by `schedule`; `none` when the schedule
asks a thread to move that cannot. -/
def WriteSystem.run {T : Type} : WriteSystem T → List Nat → Option (WriteSystem T)
  | sys, [] => some sys
  | sys, tid :: schedule =>
    match sys.step tid with
    | none => none
    | some sys1 => WriteSystem.run sys1 schedule

/-- Every thread has completed all of its calls. -/
def WriteSystem.finished {T : Type} (sys : WriteSystem T) : Bool :=
  sys.threads.all fun t => decide (t.pc = WritePc.idle) && t.todo.isEmpty

/-- The values a thread has not appended yet. -/
def WriteThread.pending {T : Type} (t : WriteThread T) : List T :=
  match t.pc with
  | WritePc.appended => t.todo.tail
  | _ => t.todo

/-- The schedule in which the threads numbered from `k` on run one after the
other, thread `k + i` performing the three steps of each of its
`batches[i].length` calls. -/
def WriteSystem.serialSchedule {T : Type} : Nat → List (List T) → List Nat
  | _, [] => []
  | k, b :: bs => List.replicate (3 * b.length) k ++ WriteSystem.serialSchedule (k + 1) bs

/-! ## Bulk append, element by element -/

/-- The batch appended one element at a time: `emplace_back(T &&)` called once
for each element of `values`, in order. -/
def WriteSynchronizedRef.emplace_back_each {T : Type} (w : WriteSynchronizedRef)
    (values : List T) (h : Heap T) : Heap T :=
  values.foldl (fun g value => w.emplace_back_rvalue value g) h

/-! ## Histories of calls on one reader, single caller -/

/-- What one call of `next` did: the reader and the output location
afterwards, the returned flag, and the index at which `m_vector` was read, if
it was read. -/
structure NextAccess (T : Type) where
  reader : ReadSynchronizedRef
  value : T
  hasNext : Bool
  index : Option Nat
deriving DecidableEq, Repr

/-- Member `bool next(T *value) const` with the element access made explicit:
`m_vector[m_next]` is a lookup at the index `m_next` converted to `size_t`, and
the result is `none` when that index is not below the size of the vector. -/
def ReadSynchronizedRef.nextAccess {T : Type} (r : ReadSynchronizedRef) (value : T)
    (h : Heap T) : Option (NextAccess T) :=
  let r1 : ReadSynchronizedRef := { r with m_next := wrapInt32 (r.m_next + 1) }
  if toSizeT r1.m_next < (h r1.m_vector).length then
    match (h r1.m_vector)[toSizeT r1.m_next]? with
    | some x =>
      some { reader := r1, value := x, hasNext := true, index := some (toSizeT r1.m_next) }
    | none => none
  else
    some { reader := r1, value := value, hasNext := false, index := none }

/-- A call made on a reader. -/
inductive ReaderCall where
  | next
  | reset (vector : Addr)
deriving DecidableEq, Repr

/-- A reader in use by a single caller: the memory, the reader, the content of
the output location, and a log of every element access made so far as a pair
(index used, size of the bound vector at that moment). -/
structure ReaderRun (T : Type) where
  heap : Heap T
  reader : ReadSynchronizedRef
  value : T
  reads : List (Nat × Nat)

/-- Perform one call; `none` when `next` accesses the vector out of range. -/
def ReaderRun.call {T : Type} (st : ReaderRun T) : ReaderCall → Option (ReaderRun T)
  | ReaderCall.next =>
    match st.reader.nextAccess st.value st.heap with
    | none => none
    | some a =>
      some { heap := st.heap, reader := a.reader, value := a.value,
             reads := match a.index with
               | some i => st.reads ++ [(i, (st.heap st.reader.m_vector).length)]
               | none => st.reads }
  | ReaderCall.reset vector =>
    some { st with reader := (st.reader.reset vector st.heap).1,
                   heap := (st.reader.reset vector st.heap).2 }

/-- Perform a history of calls in order. -/
def ReaderRun.run {T : Type} : ReaderRun T → List ReaderCall → Option (ReaderRun T)
  | st, [] => some st
  | st, c :: calls =>
    match st.call c with
    | none => none
    | some st1 => ReaderRun.run st1 calls

/-! ## Theorems: writer -/

theorem Heap.store_same {T : Type} (h : Heap T) (a : Addr) (v : List T) :
    h.store a v a = v := by
  simp [Heap.store]

theorem Heap.store_other {T : Type} (h : Heap T) (a b : Addr) (v : List T)
    (hne : b ≠ a) : h.store a v b = h b := by
  simp [Heap.store, hne]

/-- C1: after `emplace_bulk(values)` the bound vector holds its prior contents
followed by `values` in their original order, whether or not it was empty, and
no other vector changes; on an empty vector `emplace_bulk([a,b,c])` gives
`[a,b,c]` and on `[x,y]` it gives `[x,y,a,b,c]`. -/
theorem emplace_bulk_appends {T : Type} (w : WriteSynchronizedRef) (values : List T)
    (h : Heap T) :
    (w.emplace_bulk values h) w.m_vector = h w.m_vector ++ values ∧
    w.emplace_bulk values h = h.store w.m_vector (h w.m_vector ++ values) ∧
    (∀ a b c : T,
      (w.emplace_bulk [a, b, c] (h.store w.m_vector [])) w.m_vector = [a, b, c]) ∧
    (∀ x y a b c : T,
      (w.emplace_bulk [a, b, c] (h.store w.m_vector [x, y])) w.m_vector
        = [x, y, a, b, c]) := by
  have full : ∀ (vs : List T) (g : Heap T),
      w.emplace_bulk vs g = g.store w.m_vector (g w.m_vector ++ vs) := by
    intro vs g
    unfold WriteSynchronizedRef.emplace_bulk
    cases hp : g w.m_vector with
    | nil => simp
    | cons x xs => simp
  refine ⟨?_, full values h, ?_, ?_⟩
  · rw [full, Heap.store_same]
  · intro a b c
    rw [full, Heap.store_same, Heap.store_same]; rfl
  · intro x y a b c
    rw [full, Heap.store_same, Heap.store_same]; rfl

/-- C2: each of the two `emplace_back` overloads leaves the bound vector equal
to its old contents with `value` as the new last element: the length grows by
exactly one, the last element is `value`, and the first `|s|` elements are the
old contents in the same order. -/
theorem emplace_back_appends {T : Type} (w : WriteSynchronizedRef) (value : T)
    (h : Heap T) :
    ((w.emplace_back_rvalue value h) w.m_vector = h w.m_vector ++ [value] ∧
      ((w.emplace_back_rvalue value h) w.m_vector).length = (h w.m_vector).length + 1 ∧
      ((w.emplace_back_rvalue value h) w.m_vector).getLast? = some value ∧
      ((w.emplace_back_rvalue value h) w.m_vector).take (h w.m_vector).length
        = h w.m_vector) ∧
    ((w.emplace_back_cref value h) w.m_vector = h w.m_vector ++ [value] ∧
      ((w.emplace_back_cref value h) w.m_vector).length = (h w.m_vector).length + 1 ∧
      ((w.emplace_back_cref value h) w.m_vector).getLast? = some value ∧
      ((w.emplace_back_cref value h) w.m_vector).take (h w.m_vector).length
        = h w.m_vector) := by
  have e1 : (w.emplace_back_rvalue value h) w.m_vector = h w.m_vector ++ [value] := by
    unfold WriteSynchronizedRef.emplace_back_rvalue
    exact Heap.store_same _ _ _
  have e2 : (w.emplace_back_cref value h) w.m_vector = h w.m_vector ++ [value] := by
    unfold WriteSynchronizedRef.emplace_back_cref
    exact Heap.store_same _ _ _
  rw [e1, e2]
  simp

/-! ## Theorems: machine integers -/

theorem wrapInt32_of_range (x : Int) (h1 : -2 ^ 31 ≤ x) (h2 : x < 2 ^ 31) :
    wrapInt32 x = x := by
  unfold wrapInt32
  omega

theorem wrapInt32_add_wrap (a b : Int) :
    wrapInt32 (wrapInt32 a + b) = wrapInt32 (a + b) := by
  unfold wrapInt32
  omega

theorem toSizeT_of_nonneg (k : Nat) (hk : k < 2 ^ 64) : toSizeT (k : Int) = k := by
  unfold toSizeT
  omega

theorem toSizeT_of_neg (x : Int) (h1 : -2 ^ 31 ≤ x) (h2 : x < 0) :
    toSizeT x = (2 ^ 64 + x).toNat := by
  unfold toSizeT
  omega

/-! ## Theorems: reader, single caller -/

theorem next_reader {T : Type} (r : ReadSynchronizedRef) (value : T) (h : Heap T) :
    (r.next value h).1 = { r with m_next := wrapInt32 (r.m_next + 1) } := by
  unfold ReadSynchronizedRef.next
  dsimp only
  split <;> rfl

theorem next_outcome {T : Type} (r : ReadSynchronizedRef) (value : T) (h : Heap T) :
    (r.next value h).2 =
      if hasNext : toSizeT (wrapInt32 (r.m_next + 1)) < (h r.m_vector).length then
        ((h r.m_vector)[toSizeT (wrapInt32 (r.m_next + 1))], true)
      else (value, false) := by
  unfold ReadSynchronizedRef.next
  dsimp only
  split <;> rfl

theorem afterCalls_m_vector {T : Type} (h : Heap T) (value : T) (n : Nat)
    (r : ReadSynchronizedRef) :
    (ReadSynchronizedRef.afterCalls h value n r).m_vector = r.m_vector := by
  induction n generalizing r with
  | zero => rfl
  | succ n ih =>
    rw [ReadSynchronizedRef.afterCalls, ih, next_reader]

theorem afterCalls_next_m_next {T : Type} (h : Heap T) (value : T) (n : Nat)
    (r : ReadSynchronizedRef) :
    ((ReadSynchronizedRef.afterCalls h value n r).next value h).1.m_next
      = wrapInt32 (r.m_next + n + 1) := by
  induction n generalizing r with
  | zero => rw [ReadSynchronizedRef.afterCalls, next_reader]; simp
  | succ n ih =>
    rw [ReadSynchronizedRef.afterCalls, ih, next_reader]
    dsimp only
    rw [add_assoc, wrapInt32_add_wrap]
    congr 1
    push_cast
    ring

theorem nthCall_eq {T : Type} (h : Heap T) (value : T) (r : ReadSynchronizedRef)
    (k : Nat) :
    ReadSynchronizedRef.nthCall h value r k =
      if hasNext : toSizeT (wrapInt32 (r.m_next + k + 1)) < (h r.m_vector).length then
        ((h r.m_vector)[toSizeT (wrapInt32 (r.m_next + k + 1))], true)
      else (value, false) := by
  have hc := afterCalls_next_m_next h value k r
  rw [next_reader] at hc
  dsimp only at hc
  unfold ReadSynchronizedRef.nthCall
  rw [next_outcome]
  simp only [hc, afterCalls_m_vector]

theorem afterCalls_succ {T : Type} (h : Heap T) (value : T) (n : Nat)
    (r : ReadSynchronizedRef) :
    ReadSynchronizedRef.afterCalls h value (n + 1) r
      = ((ReadSynchronizedRef.afterCalls h value n r).next value h).1 := by
  induction n generalizing r with
  | zero => rfl
  | succ n ih =>
    rw [ReadSynchronizedRef.afterCalls, ih]
    rfl

theorem afterCalls_m_next {T : Type} (h : Heap T) (value : T) (n : Nat)
    (r : ReadSynchronizedRef) :
    (ReadSynchronizedRef.afterCalls h value (n + 1) r).m_next
      = wrapInt32 (r.m_next + n + 1) := by
  rw [afterCalls_succ, afterCalls_next_m_next]

/-- From the before-first cursor, call number `k + 1` delivers element `k`
while `k` is within the vector and below `2 ^ 31`. -/
theorem nthCall_start_lt {T : Type} (h : Heap T) (value : T) (r : ReadSynchronizedRef)
    (k : Nat) (hr : r.m_next = -1) (hk : k < (h r.m_vector).length)
    (hk2 : k < 2 ^ 31) :
    ReadSynchronizedRef.nthCall h value r k = ((h r.m_vector)[k], true) := by
  have e : toSizeT (wrapInt32 (r.m_next + k + 1)) = k := by
    have e1 : r.m_next + (k : Int) + 1 = (k : Int) := by rw [hr]; ring
    rw [e1, wrapInt32_of_range _ (by omega) (by omega), toSizeT_of_nonneg _ (by omega)]
  rw [nthCall_eq]
  simp only [e, hk, dite_true]

/-- From the before-first cursor, call number `k + 1` returns false when `k` is
at or past the length, for all calls up to number `2 ^ 32`. -/
theorem nthCall_start_ge {T : Type} (h : Heap T) (value : T) (r : ReadSynchronizedRef)
    (k : Nat) (hr : r.m_next = -1) (hL : (h r.m_vector).length ≤ max_size)
    (hk : (h r.m_vector).length ≤ k ∨ 2 ^ 31 ≤ k) (hk2 : k < 2 ^ 32) :
    ReadSynchronizedRef.nthCall h value r k = (value, false) := by
  have e : ¬ toSizeT (wrapInt32 (r.m_next + k + 1)) < (h r.m_vector).length := by
    have e1 : r.m_next + (k : Int) + 1 = (k : Int) := by rw [hr]; ring
    rw [e1]
    unfold max_size at hL
    unfold toSizeT wrapInt32
    omega
  rw [nthCall_eq]
  simp only [e, dite_false]

/-- C3 (as stated, refuted): over a vector of `2 ^ 31 + 1` elements, call
number `2 ^ 31 + 1` of `next` on a freshly constructed reader is still within
the length, yet it returns false: the 32-bit cursor has wrapped to `-2 ^ 31`. -/
theorem next_misses_element_past_int_max :
    2 ^ 31 < ((fun _ => List.replicate (2 ^ 31 + 1) (0 : Nat)) (0 : Addr)).length ∧
    ReadSynchronizedRef.nthCall (fun _ => List.replicate (2 ^ 31 + 1) (0 : Nat)) 7
      (ReadSynchronizedRef.ctor 0) (2 ^ 31) = (7, false) := by
  have hlen : (List.replicate (2 ^ 31 + 1) (0 : Nat)).length = 2 ^ 31 + 1 :=
    List.length_replicate _ _
  constructor
  · show 2 ^ 31 < (List.replicate (2 ^ 31 + 1) (0 : Nat)).length
    rw [hlen]; omega
  · apply nthCall_start_ge _ _ _ _ rfl
    · show (List.replicate (2 ^ 31 + 1) (0 : Nat)).length ≤ max_size
      rw [hlen]; unfold max_size; omega
    · exact Or.inr (le_refl _)
    · omega

/-- C3 (amended): for a vector `s` of length `L ≤ 2 ^ 31` (including `L = 0`)
and a freshly constructed reader used by a single caller, call number `k` of
`next` for `1 ≤ k ≤ L` returns true and writes `s[k-1]`, call number `L + 1`
returns false and leaves the output untouched, and the first `L` calls deliver
exactly the elements of `s` in order. -/
theorem next_traversal_in_order {T : Type} (h : Heap T) (a : Addr) (value : T)
    (hL : (h a).length ≤ 2 ^ 31) :
    (∀ (k : Nat) (hk : k < (h a).length),
      ReadSynchronizedRef.nthCall h value (ReadSynchronizedRef.ctor a) k
        = ((h a)[k], true)) ∧
    ReadSynchronizedRef.nthCall h value (ReadSynchronizedRef.ctor a) (h a).length
      = (value, false) ∧
    (List.range (h a).length).map
      (fun k => (ReadSynchronizedRef.nthCall h value (ReadSynchronizedRef.ctor a) k).1)
      = h a := by
  have lt : ∀ (k : Nat) (hk : k < (h a).length),
      ReadSynchronizedRef.nthCall h value (ReadSynchronizedRef.ctor a) k
        = ((h a)[k], true) := by
    intro k hk
    exact nthCall_start_lt h value (ReadSynchronizedRef.ctor a) k rfl hk (by omega)
  refine ⟨lt, ?_, ?_⟩
  · apply nthCall_start_ge h value (ReadSynchronizedRef.ctor a) _ rfl
    · show (h a).length ≤ max_size
      unfold max_size; omega
    · exact Or.inl (le_refl _)
    · show (h a).length < 2 ^ 32
      omega
  · apply List.ext_getElem
    · simp
    · intro i h1 h2
      simp only [List.getElem_map, List.getElem_range]
      rw [lt i h2]

/-- C3 witness: a reader over `[10, 20, 30]`. -/
theorem next_traversal_in_order_witness :
    ((fun _ => [10, 20, 30]) (0 : Addr)).length ≤ 2 ^ 31 ∧
    ReadSynchronizedRef.nthCall (fun _ => [10, 20, 30]) 7 (ReadSynchronizedRef.ctor 0) 1
      = (20, true) ∧
    ReadSynchronizedRef.nthCall (fun _ => [10, 20, 30]) 7 (ReadSynchronizedRef.ctor 0) 3
      = (7, false) :=
  ⟨by decide,
   (next_traversal_in_order (fun _ => [10, 20, 30]) 0 7 (by decide)).1 1 (by decide),
   (next_traversal_in_order (fun _ => [10, 20, 30]) 0 7 (by decide)).2.1⟩

/-- C4 (as stated, refuted): on the one-element vector `[5]` the second call of
`next` returns false, and call number `2 ^ 32 + 1`, with no reset in between,
returns true and delivers element `0` again: the 32-bit cursor has wrapped all
the way round. -/
theorem next_delivers_again_after_wrap :
    ReadSynchronizedRef.nthCall (fun _ => [5]) 7 (ReadSynchronizedRef.ctor 0) 1
      = (7, false) ∧
    ReadSynchronizedRef.nthCall (fun _ => [5]) 7 (ReadSynchronizedRef.ctor 0) (2 ^ 32)
      = (5, true) := by
  constructor
  · rw [nthCall_eq]; decide
  · rw [nthCall_eq]; decide

/-- C4 (amended): starting from the before-first cursor (after construction or
after `reset`) on a vector whose length does not change, once a call of `next`
has returned false every later call up to and including call number `2 ^ 32`
also returns false. -/
theorem exhausted_stays_exhausted {T : Type} (h : Heap T) (value : T)
    (r : ReadSynchronizedRef) (j k : Nat) (hr : r.m_next = -1)
    (hL : (h r.m_vector).length ≤ max_size) (hjk : j ≤ k) (hk : k < 2 ^ 32)
    (hj : (ReadSynchronizedRef.nthCall h value r j).2 = false) :
    ReadSynchronizedRef.nthCall h value r k = (value, false) := by
  apply nthCall_start_ge h value r k hr hL _ hk
  by_cases hk31 : 2 ^ 31 ≤ k
  · exact Or.inr hk31
  · left
    by_contra hlt
    have hjl : j < (h r.m_vector).length := by omega
    rw [nthCall_start_lt h value r j hr hjl (by omega)] at hj
    exact Bool.noConfusion hj

/-- C4 witness: on `[5]` the second call returns false, hence so does the
tenth. -/
theorem exhausted_stays_exhausted_witness :
    (ReadSynchronizedRef.ctor 0).m_next = -1 ∧
    ((fun _ => [5]) (ReadSynchronizedRef.ctor 0).m_vector).length ≤ max_size ∧
    (ReadSynchronizedRef.nthCall (fun _ => [5]) 7 (ReadSynchronizedRef.ctor 0) 1).2
      = false ∧
    ReadSynchronizedRef.nthCall (fun _ => [5]) 7 (ReadSynchronizedRef.ctor 0) 9
      = (7, false) :=
  ⟨rfl, by decide, by decide,
   exhausted_stays_exhausted (fun _ => [5]) 7 (ReadSynchronizedRef.ctor 0) 1 9 rfl
     (by decide) (by decide) (by decide) (by decide)⟩

theorem reset_bound_contents {T : Type} (r : ReadSynchronizedRef) (vector : Addr)
    (h : Heap T) :
    (r.reset vector h).2 (r.reset vector h).1.m_vector = h vector := by
  unfold ReadSynchronizedRef.reset
  exact Heap.store_same _ _ _

/-- C5 (as stated, refuted): after `reset` onto a vector of `2 ^ 31` elements
`size()` returns `-2 ^ 31`, not the length of that vector. -/
theorem size_after_reset_wraps :
    ((fun a => if a = 1 then List.replicate (2 ^ 31) (0 : Nat) else []) (1 : Addr)).length
      = 2 ^ 31 ∧
    ((ReadSynchronizedRef.ctor 0).reset 1
        (fun a => if a = 1 then List.replicate (2 ^ 31) (0 : Nat) else [])).1.size
      ((ReadSynchronizedRef.ctor 0).reset 1
        (fun a => if a = 1 then List.replicate (2 ^ 31) (0 : Nat) else [])).2
      = -2 ^ 31 := by
  have hv : (if (1 : Addr) = 1 then List.replicate (2 ^ 31) (0 : Nat) else [])
      = List.replicate (2 ^ 31) (0 : Nat) := if_pos rfl
  have hlen : (List.replicate (2 ^ 31) (0 : Nat)).length = 2 ^ 31 :=
    List.length_replicate _ _
  constructor
  · show (if (1 : Addr) = 1 then List.replicate (2 ^ 31) (0 : Nat) else []).length = 2 ^ 31
    rw [hv, hlen]
  · unfold ReadSynchronizedRef.size
    rw [reset_bound_contents, hv, hlen]
    decide

/-- C5 (amended): for every reader state and every vector `newSeq` of fewer
than `2 ^ 31` elements, after `reset(newSeq)` the cursor is `-1`, `size()`
returns the length of `newSeq`, and call number `k + 1` of `next` returns true
with `newSeq[k]` for every `k` below the length, so the traversal starts over
at index 0 and proceeds in order. -/
theorem reset_restarts_traversal {T : Type} (r : ReadSynchronizedRef) (vector : Addr)
    (h : Heap T) (value : T) (hlen : (h vector).length < 2 ^ 31) :
    (r.reset vector h).1.m_next = -1 ∧
    (r.reset vector h).1.size (r.reset vector h).2 = ((h vector).length : Int) ∧
    (∀ (k : Nat) (hk : k < (h vector).length),
      ReadSynchronizedRef.nthCall (r.reset vector h).2 value (r.reset vector h).1 k
        = ((h vector)[k], true)) := by
  have hv := reset_bound_contents r vector h
  refine ⟨rfl, ?_, ?_⟩
  · unfold ReadSynchronizedRef.size
    rw [hv]
    exact wrapInt32_of_range _ (by omega) (by omega)
  · intro k hk
    have hk2 : k < ((r.reset vector h).2 (r.reset vector h).1.m_vector).length := by
      rw [hv]; exact hk
    rw [nthCall_start_lt (r.reset vector h).2 value (r.reset vector h).1 k rfl hk2
      (by omega)]
    congr 1
    exact List.getElem_of_eq hv hk2

/-- C5 witness: an exhausted reader over `[1, 2]` is reset onto `[8, 9]`. -/
theorem reset_restarts_traversal_witness :
    ((fun a => if a = 0 then [1, 2] else [8, 9]) (1 : Addr)).length < 2 ^ 31 ∧
    ((ReadSynchronizedRef.mk 0 5).reset 1 (fun a => if a = 0 then [1, 2] else [8, 9])).1.m_next
      = -1 ∧
    ReadSynchronizedRef.nthCall
      ((ReadSynchronizedRef.mk 0 5).reset 1 (fun a => if a = 0 then [1, 2] else [8, 9])).2 7
      ((ReadSynchronizedRef.mk 0 5).reset 1 (fun a => if a = 0 then [1, 2] else [8, 9])).1 0
      = (8, true) :=
  ⟨by decide,
   (reset_restarts_traversal (ReadSynchronizedRef.mk 0 5) 1
     (fun a => if a = 0 then [1, 2] else [8, 9]) 7 (by decide)).1,
   (reset_restarts_traversal (ReadSynchronizedRef.mk 0 5) 1
     (fun a => if a = 0 then [1, 2] else [8, 9]) 7 (by decide)).2.2 0 (by decide)⟩

/-- C6 (code evaluated at the failing input): a reader is constructed over the
vector `[1, 2]` at address 0 and `reset` is called with the vector `[3]` at
address 1.  Afterwards the reader still refers to address 0, and the vector at
address 0 has been overwritten with `[3]`. -/
theorem reset_overwrites_bound_vector :
    (fun a => if a = 0 then [1, 2] else [3]) (0 : Addr) = [1, 2] ∧
    ((ReadSynchronizedRef.ctor 0).reset 1 (fun a => if a = 0 then [1, 2] else [3])).2 0
      = [3] ∧
    ((ReadSynchronizedRef.ctor 0).reset 1 (fun a => if a = 0 then [1, 2] else [3])).1.m_vector
      = 0 := by
  decide

/-- C7 (as stated, refuted): `size()` of a freshly constructed reader over a
vector of `2 ^ 31` elements is `-2 ^ 31`. -/
theorem size_wraps_at_int_max :
    ((fun _ => List.replicate (2 ^ 31) (0 : Nat)) (0 : Addr)).length = 2 ^ 31 ∧
    (ReadSynchronizedRef.ctor 0).size (fun _ => List.replicate (2 ^ 31) (0 : Nat))
      = -2 ^ 31 := by
  have hlen : (List.replicate (2 ^ 31) (0 : Nat)).length = 2 ^ 31 :=
    List.length_replicate _ _
  constructor
  · exact hlen
  · show wrapInt32 ((List.replicate (2 ^ 31) (0 : Nat)).length : Int) = -2 ^ 31
    rw [hlen]
    decide

/-- C7 (amended): `size()` right after constructing the reader over a vector of
length `L < 2 ^ 31`, with no traversal, returns `L`; for every length `L` the
result is `L` converted to a signed 32-bit `int`: it lies in the signed 32-bit
range, differs from `L` by a multiple of `2 ^ 32`, and is `L - 2 ^ 32` for
`2 ^ 31 ≤ L < 2 ^ 32`. -/
theorem size_after_construction {T : Type} (h : Heap T) (a : Addr) :
    ((h a).length < 2 ^ 31 →
      (ReadSynchronizedRef.ctor a).size h = ((h a).length : Int)) ∧
    (ReadSynchronizedRef.ctor a).size h = wrapInt32 ((h a).length : Int) ∧
    -2 ^ 31 ≤ (ReadSynchronizedRef.ctor a).size h ∧
    (ReadSynchronizedRef.ctor a).size h < 2 ^ 31 ∧
    ((ReadSynchronizedRef.ctor a).size h - ((h a).length : Int)) % 2 ^ 32 = 0 ∧
    (2 ^ 31 ≤ (h a).length → (h a).length < 2 ^ 32 →
      (ReadSynchronizedRef.ctor a).size h = ((h a).length : Int) - 2 ^ 32) := by
  have e : (ReadSynchronizedRef.ctor a).size h
      = (((h a).length : Int) + 2 ^ 31) % 2 ^ 32 - 2 ^ 31 := rfl
  refine ⟨?_, rfl, ?_, ?_, ?_, ?_⟩
  · intro hL
    rw [e]; omega
  · rw [e]; omega
  · rw [e]; omega
  · rw [e]; omega
  · intro h1 h2
    rw [e]; omega

/-- C7 witness: a reader over `[10, 20, 30]` has size 3. -/
theorem size_after_construction_witness :
    ((fun _ => [10, 20, 30]) (0 : Addr)).length < 2 ^ 31 ∧
    (ReadSynchronizedRef.ctor 0).size (fun _ => [10, 20, 30]) = 3 :=
  ⟨by decide, (size_after_construction (fun _ => [10, 20, 30]) 0).1 (by decide)⟩

/-- From the before-first cursor, the cursor after `n ≤ 2 ^ 31` calls is
`n - 1`. -/
theorem afterCalls_start_m_next {T : Type} (h : Heap T) (value : T)
    (r : ReadSynchronizedRef) (n : Nat) (hr : r.m_next = -1) (hn : n ≤ 2 ^ 31) :
    (ReadSynchronizedRef.afterCalls h value n r).m_next = (n : Int) - 1 := by
  cases n with
  | zero => simpa [ReadSynchronizedRef.afterCalls] using hr
  | succ m =>
    rw [afterCalls_m_next, hr]
    have e : (-1 : Int) + (m : Int) + 1 = ((m + 1 : Nat) : Int) - 1 := by
      push_cast; ring
    rw [e]
    exact wrapInt32_of_range _ (by omega) (by omega)

/-- C10 (as stated, refuted): after `2 ^ 31` calls of `next` on a freshly
constructed reader the cursor is `2 ^ 31 - 1`, and after one more call it is
`-2 ^ 31`: that call made the cursor smaller. -/
theorem cursor_decreases_at_int_max :
    (ReadSynchronizedRef.afterCalls (fun _ => [5]) 7 (2 ^ 31)
        (ReadSynchronizedRef.ctor 0)).m_next = 2 ^ 31 - 1 ∧
    (ReadSynchronizedRef.afterCalls (fun _ => [5]) 7 (2 ^ 31 + 1)
        (ReadSynchronizedRef.ctor 0)).m_next = -2 ^ 31 ∧
    (ReadSynchronizedRef.afterCalls (fun _ => [5]) 7 (2 ^ 31 + 1)
        (ReadSynchronizedRef.ctor 0)).m_next
      < (ReadSynchronizedRef.afterCalls (fun _ => [5]) 7 (2 ^ 31)
        (ReadSynchronizedRef.ctor 0)).m_next := by
  have h1 := afterCalls_start_m_next (fun _ => [5]) 7 (ReadSynchronizedRef.ctor 0)
    (2 ^ 31) rfl (le_refl _)
  have h2 := afterCalls_m_next (fun _ => [5]) 7 (2 ^ 31) (ReadSynchronizedRef.ctor 0)
  have e1 : (((2 ^ 31 : Nat) : Int) - 1) = 2 ^ 31 - 1 := by norm_num
  have e2 : wrapInt32 ((ReadSynchronizedRef.ctor 0).m_next + ((2 ^ 31 : Nat) : Int) + 1)
      = -2 ^ 31 := by decide
  rw [e1] at h1
  rw [e2] at h2
  rw [h1, h2]
  norm_num

/-- C10 (amended): the cursor is `-1` after construction and after `reset`, and
each of the first `2 ^ 31` calls of `next` made since then raises it by exactly
one, so its value after the call is strictly greater than before the call. -/
theorem cursor_increases_below_int_max {T : Type} (h : Heap T) (value : T)
    (r : ReadSynchronizedRef) (vector : Addr) (n : Nat) (hn : n < 2 ^ 31) :
    (ReadSynchronizedRef.ctor vector).m_next = -1 ∧
    (r.reset vector h).1.m_next = -1 ∧
    (ReadSynchronizedRef.afterCalls h value (n + 1) (ReadSynchronizedRef.ctor vector)).m_next
      = (ReadSynchronizedRef.afterCalls h value n (ReadSynchronizedRef.ctor vector)).m_next
        + 1 ∧
    (ReadSynchronizedRef.afterCalls h value n (ReadSynchronizedRef.ctor vector)).m_next
      < (ReadSynchronizedRef.afterCalls h value (n + 1)
          (ReadSynchronizedRef.ctor vector)).m_next ∧
    (ReadSynchronizedRef.afterCalls (r.reset vector h).2 value n (r.reset vector h).1).m_next
      < (ReadSynchronizedRef.afterCalls (r.reset vector h).2 value (n + 1)
          (r.reset vector h).1).m_next := by
  have a1 := afterCalls_start_m_next h value (ReadSynchronizedRef.ctor vector) n rfl
    (by omega)
  have a2 := afterCalls_start_m_next h value (ReadSynchronizedRef.ctor vector) (n + 1) rfl
    (by omega)
  have b1 := afterCalls_start_m_next (r.reset vector h).2 value (r.reset vector h).1 n rfl
    (by omega)
  have b2 := afterCalls_start_m_next (r.reset vector h).2 value (r.reset vector h).1
    (n + 1) rfl (by omega)
  refine ⟨rfl, rfl, ?_, ?_, ?_⟩
  · rw [a1, a2]; push_cast; ring
  · rw [a1, a2]; push_cast; omega
  · rw [b1, b2]; push_cast; omega

/-- C10 witness: the third call on a reader over `[5]` moves the cursor from 1
to 2. -/
theorem cursor_increases_below_int_max_witness :
    2 < 2 ^ 31 ∧
    (ReadSynchronizedRef.afterCalls (fun _ => [5]) 7 2 (ReadSynchronizedRef.ctor 0)).m_next
      < (ReadSynchronizedRef.afterCalls (fun _ => [5]) 7 (2 + 1)
          (ReadSynchronizedRef.ctor 0)).m_next :=
  ⟨by decide,
   (cursor_increases_below_int_max (fun _ => [5]) 7 (ReadSynchronizedRef.ctor 0) 0 2
     (by decide)).2.2.2.1⟩

/-! ## Theorems: concurrent callers of `next` -/

/-- C8 (code evaluated at failing inputs): two threads share a fresh reader.
Over `[10, 20]`, when the two calls do not overlap they deliver indices 0 and
1; when both `fetch_add`s run before either bounds test, both calls return
true and both deliver index 1, so index 0 is skipped and index 1 is
duplicated.  Over `[10]`, when the `fetch_add` of the second thread runs
between the bounds test and the element read of the first thread, the first
thread evaluates `m_vector[1]`, outside the vector. -/
theorem concurrent_next_duplicates_and_skips :
    NextSystem.delivered
        (NextSystem.run [10, 20] (NextSystem.init 2 0) [0, 0, 0, 1, 1, 1]) = [0, 1] ∧
    NextSystem.delivered
        (NextSystem.run [10, 20] (NextSystem.init 2 0) [0, 1, 0, 0, 1, 1]) = [1, 1] ∧
    (NextSystem.run [10, 20] (NextSystem.init 2 0) [0, 1, 0, 0, 1, 1]).threads
      = [{ pc := NextPc.returnedTrue 1, value := 20 },
         { pc := NextPc.returnedTrue 1, value := 20 }] ∧
    (NextSystem.run [10] (NextSystem.init 2 0) [0, 0, 1, 0]).threads
      = [{ pc := NextPc.outOfRange 1, value := 0 },
         { pc := NextPc.boundsTest, value := 0 }] := by
  decide

/-! ## Theorems: concurrent callers of `emplace_back` -/

/-- Replacing thread `i` by a thread whose pending values are those of the old
one minus the leading block `front` removes exactly `front` from the pending
values of the system. -/
theorem pending_flatten_set {T : Type} (l : List (WriteThread T)) (i : Nat)
    (t t1 : WriteThread T) (front : List T) (hi : l[i]? = some t)
    (hp : t.pending = front ++ t1.pending) :
    ((l.map WriteThread.pending).flatten).Perm
      (front ++ ((l.set i t1).map WriteThread.pending).flatten) := by
  induction l generalizing i with
  | nil => simp at hi
  | cons a l ih =>
    cases i with
    | zero =>
      simp only [List.getElem?_cons_zero, Option.some.injEq] at hi
      subst hi
      simp only [List.set_cons_zero, List.map_cons, List.flatten_cons, hp, List.append_assoc]
      exact List.Perm.refl _
    | succ j =>
      simp only [List.getElem?_cons_succ] at hi
      have h1 := ih j hi
      simp only [List.set_cons_succ, List.map_cons, List.flatten_cons]
      have h2 : (a.pending ++ (l.map WriteThread.pending).flatten).Perm
          (a.pending ++ (front ++ ((l.set j t1).map WriteThread.pending).flatten)) :=
        List.Perm.append_left _ h1
      refine h2.trans ?_
      rw [← List.append_assoc, ← List.append_assoc]
      exact List.Perm.append_right _ List.perm_append_comm

/-- One step keeps the bound vector of the form `prior ++ new`, where `new`
together with the values still pending is a rearrangement of all values. -/
theorem WriteSystem.step_invariant {T : Type} (prior all : List T)
    (sys sys1 : WriteSystem T) (tid : Nat) (hs : sys.step tid = some sys1)
    (hinv : ∃ new, sys.m_vector = prior ++ new ∧
      (new ++ (sys.threads.map WriteThread.pending).flatten).Perm all) :
    ∃ new, sys1.m_vector = prior ++ new ∧
      (new ++ (sys1.threads.map WriteThread.pending).flatten).Perm all := by
  obtain ⟨new, hv, hperm⟩ := hinv
  unfold WriteSystem.step at hs
  cases hm : sys.threads[tid]? with
  | none => rw [hm] at hs; exact Option.noConfusion hs
  | some t =>
    rw [hm] at hs
    obtain ⟨pc, todo⟩ := t
    cases todo with
    | nil => cases pc <;> exact Option.noConfusion hs
    | cons value rest =>
      cases pc with
      | idle =>
        dsimp only at hs
        split at hs
        · injection hs with hs
          subst hs
          refine ⟨new, hv, ?_⟩
          have hp := pending_flatten_set sys.threads tid
            { pc := WritePc.idle, todo := value :: rest }
            { pc := WritePc.locked, todo := value :: rest } [] hm rfl
          exact (List.Perm.append_left new hp.symm).trans hperm
        · exact Option.noConfusion hs
      | locked =>
        dsimp only at hs
        injection hs with hs
        subst hs
        refine ⟨new ++ [value], by simp [hv], ?_⟩
        have hp := pending_flatten_set sys.threads tid
          { pc := WritePc.locked, todo := value :: rest }
          { pc := WritePc.appended, todo := value :: rest } [value] hm rfl
        rw [List.append_assoc]
        exact (List.Perm.append_left new hp.symm).trans hperm
      | appended =>
        dsimp only at hs
        injection hs with hs
        subst hs
        refine ⟨new, hv, ?_⟩
        have hp := pending_flatten_set sys.threads tid
          { pc := WritePc.appended, todo := value :: rest }
          { pc := WritePc.idle, todo := rest } [] hm rfl
        exact (List.Perm.append_left new hp.symm).trans hperm

theorem WriteSystem.run_invariant {T : Type} (prior all : List T)
    (schedule : List Nat) (sys sys1 : WriteSystem T)
    (hr : sys.run schedule = some sys1)
    (hinv : ∃ new, sys.m_vector = prior ++ new ∧
      (new ++ (sys.threads.map WriteThread.pending).flatten).Perm all) :
    ∃ new, sys1.m_vector = prior ++ new ∧
      (new ++ (sys1.threads.map WriteThread.pending).flatten).Perm all := by
  induction schedule generalizing sys with
  | nil =>
    simp only [WriteSystem.run, Option.some.injEq] at hr
    subst hr
    exact hinv
  | cons tid schedule ih =>
    rw [WriteSystem.run] at hr
    cases hs : sys.step tid with
    | none => rw [hs] at hr; exact Option.noConfusion hr
    | some sys2 =>
      rw [hs] at hr
      exact ih sys2 hr (WriteSystem.step_invariant prior all sys sys2 tid hs hinv)

theorem WriteSystem.init_pending {T : Type} (prior : List T) (batches : List (List T)) :
    ((WriteSystem.init prior batches).threads.map WriteThread.pending).flatten
      = batches.flatten := by
  unfold WriteSystem.init
  simp only [List.map_map]
  congr 1
  induction batches with
  | nil => rfl
  | cons b bs ih => simp only [List.map_cons, ih]; rfl

theorem WriteSystem.finished_pending {T : Type} (sys : WriteSystem T)
    (hf : sys.finished = true) :
    (sys.threads.map WriteThread.pending).flatten = [] := by
  unfold WriteSystem.finished at hf
  rw [List.all_eq_true] at hf
  rw [List.flatten_eq_nil_iff]
  intro p hp
  rw [List.mem_map] at hp
  obtain ⟨t, ht, rfl⟩ := hp
  have h1 := hf t ht
  simp only [Bool.and_eq_true, decide_eq_true_eq, List.isEmpty_iff] at h1
  obtain ⟨hpc, htodo⟩ := h1
  unfold WriteThread.pending
  rw [hpc]
  exact htodo

theorem flatten_length_of_uniform {T : Type} (batches : List (List T)) (M : Nat)
    (hM : ∀ b ∈ batches, b.length = M) :
    batches.flatten.length = batches.length * M := by
  induction batches with
  | nil => simp
  | cons b bs ih =>
    have hb : b.length = M := hM b (List.mem_cons_self _ _)
    have hbs : ∀ c ∈ bs, c.length = M := fun c hc => hM c (List.mem_cons_of_mem _ hc)
    simp only [List.flatten_cons, List.length_append, List.length_cons, hb, ih hbs]
    ring

/-- Mutual exclusion, one step: if every thread inside a call (past the
constructor of `QMutexLocker`) is the holder of the mutex, this still holds
after a step. -/
theorem WriteSystem.step_exclusive {T : Type} (sys sys1 : WriteSystem T) (tid : Nat)
    (hs : sys.step tid = some sys1)
    (hinv : ∀ (i : Nat) (t : WriteThread T), sys.threads[i]? = some t →
      t.pc ≠ WritePc.idle → sys.m_mutex = some i) :
    ∀ (i : Nat) (t : WriteThread T), sys1.threads[i]? = some t →
      t.pc ≠ WritePc.idle → sys1.m_mutex = some i := by
  unfold WriteSystem.step at hs
  cases hm : sys.threads[tid]? with
  | none => rw [hm] at hs; exact Option.noConfusion hs
  | some t0 =>
    rw [hm] at hs
    obtain ⟨pc, todo⟩ := t0
    cases todo with
    | nil => cases pc <;> exact Option.noConfusion hs
    | cons value rest =>
      cases pc with
      | idle =>
        dsimp only at hs
        split at hs
        · rename_i hfree
          injection hs with hs
          subst hs
          intro i t hi hpc
          dsimp only at hi ⊢
          by_cases e : tid = i
          · rw [e]
          · rw [List.getElem?_set_ne e] at hi
            have h1 := hinv i t hi hpc
            rw [hfree] at h1
            exact Option.noConfusion h1
        · exact Option.noConfusion hs
      | locked =>
        dsimp only at hs
        injection hs with hs
        subst hs
        intro i t hi hpc
        dsimp only at hi ⊢
        by_cases e : tid = i
        · rw [← e]
          exact hinv tid _ hm (by simp)
        · rw [List.getElem?_set_ne e] at hi
          exact hinv i t hi hpc
      | appended =>
        dsimp only at hs
        injection hs with hs
        subst hs
        intro i t hi hpc
        dsimp only at hi ⊢
        have hold : sys.m_mutex = some tid := hinv tid _ hm (by simp)
        by_cases e : tid = i
        · subst e
          have hlt : tid < sys.threads.length := by
            rcases Nat.lt_or_ge tid sys.threads.length with h1 | h1
            · exact h1
            · rw [List.getElem?_eq_none h1] at hm; exact Option.noConfusion hm
          rw [List.getElem?_set_self hlt] at hi
          injection hi with hi
          subst hi
          exact absurd rfl hpc
        · rw [List.getElem?_set_ne e] at hi
          have h1 := hinv i t hi hpc
          rw [hold] at h1
          injection h1 with h1
          exact absurd h1 e

/-- Mutual exclusion: in every state reached from the initial one, a thread
that is inside `emplace_back` past the lock acquisition holds the mutex, so at
most one thread is between acquiring and releasing it. -/
theorem WriteSystem.mutual_exclusion {T : Type} (prior : List T)
    (batches : List (List T)) (schedule : List Nat) (sys1 : WriteSystem T)
    (hr : (WriteSystem.init prior batches).run schedule = some sys1)
    (i j : Nat) (ti tj : WriteThread T)
    (hi : sys1.threads[i]? = some ti) (hj : sys1.threads[j]? = some tj)
    (hpi : ti.pc ≠ WritePc.idle) (hpj : tj.pc ≠ WritePc.idle) : i = j := by
  have gen : ∀ (schedule : List Nat) (sys : WriteSystem T),
      sys.run schedule = some sys1 →
      (∀ (i : Nat) (t : WriteThread T), sys.threads[i]? = some t →
        t.pc ≠ WritePc.idle → sys.m_mutex = some i) →
      ∀ (i : Nat) (t : WriteThread T), sys1.threads[i]? = some t →
        t.pc ≠ WritePc.idle → sys1.m_mutex = some i := by
    intro schedule
    induction schedule with
    | nil =>
      intro sys hrun hinv
      simp only [WriteSystem.run, Option.some.injEq] at hrun
      subst hrun
      exact hinv
    | cons tid schedule ih =>
      intro sys hrun hinv
      rw [WriteSystem.run] at hrun
      cases hs : sys.step tid with
      | none => rw [hs] at hrun; exact Option.noConfusion hrun
      | some sys2 =>
        rw [hs] at hrun
        exact ih sys2 hrun (WriteSystem.step_exclusive sys sys2 tid hs hinv)
  have hinit : ∀ (i : Nat) (t : WriteThread T),
      (WriteSystem.init prior batches).threads[i]? = some t →
      t.pc ≠ WritePc.idle → (WriteSystem.init prior batches).m_mutex = some i := by
    intro i t hi hpc
    unfold WriteSystem.init at hi
    simp only [List.getElem?_map, Option.map_eq_some'] at hi
    obtain ⟨b, _, hb⟩ := hi
    subst hb
    exact absurd rfl hpc
  have h1 := gen schedule _ hr hinit i ti hi hpi
  have h2 := gen schedule _ hr hinit j tj hj hpj
  rw [h1] at h2
  injection h2

theorem WriteSystem.run_append {T : Type} (sys : WriteSystem T) (s1 s2 : List Nat) :
    sys.run (s1 ++ s2) = (sys.run s1).bind fun sys1 => sys1.run s2 := by
  induction s1 generalizing sys with
  | nil => rfl
  | cons tid s1 ih =>
    rw [List.cons_append, WriteSystem.run, WriteSystem.run]
    cases sys.step tid with
    | none => rfl
    | some sys2 => exact ih sys2

/-- One complete call: with the mutex free, three steps of an idle thread whose
next value is `value` append `value` and leave the mutex free. -/
theorem WriteSystem.run_one_call {T : Type} (sys : WriteSystem T) (i : Nat)
    (value : T) (rest : List T) (hfree : sys.m_mutex = none)
    (hi : sys.threads[i]? = some { pc := WritePc.idle, todo := value :: rest }) :
    sys.run [i, i, i] = some
      { m_mutex := none, m_vector := sys.m_vector ++ [value],
        threads := sys.threads.set i { pc := WritePc.idle, todo := rest } } := by
  have hlt : i < sys.threads.length := by
    rcases Nat.lt_or_ge i sys.threads.length with h1 | h1
    · exact h1
    · rw [List.getElem?_eq_none h1] at hi; exact Option.noConfusion hi
  simp [WriteSystem.run, WriteSystem.step, hi, hfree, hlt]

/-- All calls of one thread, run without interruption. -/
theorem WriteSystem.run_one_thread {T : Type} (todo : List T) (sys : WriteSystem T)
    (i : Nat) (hfree : sys.m_mutex = none)
    (hi : sys.threads[i]? = some { pc := WritePc.idle, todo := todo }) :
    sys.run (List.replicate (3 * todo.length) i) = some
      { m_mutex := none, m_vector := sys.m_vector ++ todo,
        threads := sys.threads.set i { pc := WritePc.idle, todo := [] } } := by
  induction todo generalizing sys with
  | nil =>
    have hlt : i < sys.threads.length := by
      rcases Nat.lt_or_ge i sys.threads.length with h1 | h1
      · exact h1
      · rw [List.getElem?_eq_none h1] at hi; exact Option.noConfusion hi
    have hset : sys.threads.set i { pc := WritePc.idle, todo := [] } = sys.threads := by
      apply List.ext_getElem?
      intro j
      by_cases e : i = j
      · subst e; rw [List.getElem?_set_self hlt, hi]
      · rw [List.getElem?_set_ne e]
    cases sys with
    | mk m v ts =>
      dsimp only at hfree hset ⊢
      simp only [List.length_nil, Nat.mul_zero, List.replicate_zero, WriteSystem.run,
        List.append_nil, hset, hfree]
  | cons value rest ih =>
    have hlt : i < sys.threads.length := by
      rcases Nat.lt_or_ge i sys.threads.length with h1 | h1
      · exact h1
      · rw [List.getElem?_eq_none h1] at hi; exact Option.noConfusion hi
    have hsplit : List.replicate (3 * (value :: rest).length) i
        = [i, i, i] ++ List.replicate (3 * rest.length) i := by
      rw [List.length_cons, Nat.mul_succ, Nat.add_comm, List.replicate_add]
      rfl
    rw [hsplit, WriteSystem.run_append, WriteSystem.run_one_call sys i value rest hfree hi]
    show WriteSystem.run
        { m_mutex := none, m_vector := sys.m_vector ++ [value],
          threads := sys.threads.set i { pc := WritePc.idle, todo := rest } }
        (List.replicate (3 * rest.length) i) = _
    rw [ih _ rfl (List.getElem?_set_self hlt)]
    simp only [List.set_set, List.append_assoc, List.singleton_append]

/-- The serial schedule runs every thread behind the block `pre` to completion
and appends the batches one after the other. -/
theorem WriteSystem.run_serial {T : Type} (bs : List (List T))
    (pre : List (WriteThread T)) (v : List T) :
    WriteSystem.run
        { m_mutex := none, m_vector := v,
          threads := pre ++ bs.map fun b => { pc := WritePc.idle, todo := b } }
        (WriteSystem.serialSchedule pre.length bs)
      = some
        { m_mutex := none, m_vector := v ++ bs.flatten,
          threads := pre ++ bs.map fun _ => { pc := WritePc.idle, todo := [] } } := by
  induction bs generalizing pre v with
  | nil => simp [WriteSystem.serialSchedule, WriteSystem.run]
  | cons b bs ih =>
    have hi : (pre ++ (b :: bs).map fun b => ({ pc := WritePc.idle, todo := b } : WriteThread T))[pre.length]?
        = some { pc := WritePc.idle, todo := b } := by
      rw [List.getElem?_append_right (le_refl _)]
      simp
    have hset : (pre ++ (b :: bs).map fun b => ({ pc := WritePc.idle, todo := b } : WriteThread T)).set
          pre.length { pc := WritePc.idle, todo := [] }
        = (pre ++ [{ pc := WritePc.idle, todo := [] }])
            ++ bs.map fun b => { pc := WritePc.idle, todo := b } := by
      simp
    rw [WriteSystem.serialSchedule, WriteSystem.run_append,
      WriteSystem.run_one_thread b _ pre.length rfl hi]
    rw [hset]
    have hlen : pre.length + 1 = (pre ++ [({ pc := WritePc.idle, todo := [] } : WriteThread T)]).length := by
      simp
    rw [hlen]
    rw [Option.some_bind]
    dsimp only
    rw [ih (pre ++ [({ pc := WritePc.idle, todo := [] } : WriteThread T)]) (v ++ b)]
    simp

/-- Some schedule completes: the serial one runs all threads to the end, and
the bound vector is then the prior contents followed by the batches. -/
theorem WriteSystem.serial_finishes {T : Type} (prior : List T)
    (batches : List (List T)) :
    ∃ sys1, (WriteSystem.init prior batches).run (WriteSystem.serialSchedule 0 batches)
        = some sys1 ∧
      sys1.finished = true ∧ sys1.m_vector = prior ++ batches.flatten := by
  refine ⟨_, WriteSystem.run_serial batches [] prior, ?_, rfl⟩
  simp [WriteSystem.finished]

/-- C9: `N` threads each call `emplace_back` `M` times on one shared writer,
all values being distinct.  The threads can run to completion, and whatever
the order in which the mutex serialises the calls, once every thread has
finished the bound vector is its prior contents followed by exactly `N * M`
new elements, among which every value passed to `emplace_back` occurs exactly
once. -/
theorem concurrent_emplace_back_exactly_once {T : Type} [DecidableEq T]
    (prior : List T) (batches : List (List T)) (N M : Nat)
    (hN : batches.length = N) (hM : ∀ b ∈ batches, b.length = M)
    (hd : batches.flatten.Nodup) :
    (∃ schedule sys1, (WriteSystem.init prior batches).run schedule = some sys1 ∧
      sys1.finished = true) ∧
    ∀ (schedule : List Nat) (sys1 : WriteSystem T),
      (WriteSystem.init prior batches).run schedule = some sys1 →
      sys1.finished = true →
      ∃ new, sys1.m_vector = prior ++ new ∧ new.length = N * M ∧
        new.Perm batches.flatten ∧ ∀ v ∈ batches.flatten, new.count v = 1 := by
  constructor
  · obtain ⟨sys1, h1, h2, _⟩ := WriteSystem.serial_finishes prior batches
    exact ⟨_, sys1, h1, h2⟩
  · intro schedule sys1 hr hf
    have hinit : ∃ new, (WriteSystem.init prior batches).m_vector = prior ++ new ∧
        (new ++ ((WriteSystem.init prior batches).threads.map
          WriteThread.pending).flatten).Perm batches.flatten := by
      refine ⟨[], by simp [WriteSystem.init], ?_⟩
      rw [WriteSystem.init_pending]
      exact List.Perm.refl _
    obtain ⟨new, hv, hperm⟩ :=
      WriteSystem.run_invariant prior batches.flatten schedule _ sys1 hr hinit
    rw [WriteSystem.finished_pending sys1 hf, List.append_nil] at hperm
    refine ⟨new, hv, ?_, hperm, ?_⟩
    · rw [hperm.length_eq, flatten_length_of_uniform batches M hM, hN]
    · intro v hv1
      rw [hperm.count_eq]
      exact List.count_eq_one_of_mem hd hv1

/-- C9 witness: two threads append `1, 2` and `3, 4` to `[0]`, taking turns. -/
theorem concurrent_emplace_back_exactly_once_witness :
    [[1, 2], [3, 4]].length = 2 ∧ (∀ b ∈ [[1, 2], [3, 4]], b.length = 2) ∧
    [[1, 2], [3, 4]].flatten.Nodup ∧
    (WriteSystem.init [0] [[1, 2], [3, 4]]).run [0, 0, 0, 1, 1, 1, 0, 0, 0, 1, 1, 1]
      = some { m_mutex := none, m_vector := [0, 1, 3, 2, 4],
               threads := [{ pc := WritePc.idle, todo := [] },
                           { pc := WritePc.idle, todo := [] }] } ∧
    ∃ new, [0, 1, 3, 2, 4] = [0] ++ new ∧ new.length = 2 * 2 ∧
      new.Perm [[1, 2], [3, 4]].flatten ∧ ∀ v ∈ [[1, 2], [3, 4]].flatten, new.count v = 1 :=
  ⟨rfl, by decide, by decide, by decide,
   (concurrent_emplace_back_exactly_once [0] [[1, 2], [3, 4]] 2 2 rfl (by decide)
     (by decide)).2
     [0, 0, 0, 1, 1, 1, 0, 0, 0, 1, 1, 1]
     { m_mutex := none, m_vector := [0, 1, 3, 2, 4],
       threads := [{ pc := WritePc.idle, todo := [] }, { pc := WritePc.idle, todo := [] }] }
     (by decide) (by decide)⟩

/-! ## Theorems: bulk append against repeated append -/

theorem Heap.store_store {T : Type} (h : Heap T) (a : Addr) (u v : List T) :
    (h.store a u).store a v = h.store a v := by
  funext b
  unfold Heap.store
  split <;> rfl

theorem Heap.store_self {T : Type} (h : Heap T) (a : Addr) : h.store a (h a) = h := by
  funext b
  unfold Heap.store
  split
  · rename_i e; rw [e]
  · rfl

theorem emplace_back_each_eq {T : Type} (w : WriteSynchronizedRef) (values : List T)
    (h : Heap T) :
    w.emplace_back_each values h = h.store w.m_vector (h w.m_vector ++ values) := by
  unfold WriteSynchronizedRef.emplace_back_each
  induction values generalizing h with
  | nil => simp [Heap.store_self]
  | cons v vs ih =>
    rw [List.foldl_cons, ih]
    unfold WriteSynchronizedRef.emplace_back_rvalue
    rw [Heap.store_same, Heap.store_store, List.append_assoc]
    rfl

theorem emplace_bulk_eq {T : Type} (w : WriteSynchronizedRef) (values : List T)
    (h : Heap T) :
    w.emplace_bulk values h = h.store w.m_vector (h w.m_vector ++ values) := by
  unfold WriteSynchronizedRef.emplace_bulk
  cases hp : h w.m_vector with
  | nil => simp
  | cons x xs => simp

/-- C11: `emplace_bulk(values)` leaves the memory in the same state as calling
`emplace_back` (either overload) once for each element of `values` in order;
`emplace_bulk` of an empty batch changes nothing; and on an empty bound vector
the move-assignment branch gives what the insert-at-end branch would give. -/
theorem emplace_bulk_refines_emplace_back {T : Type} (w : WriteSynchronizedRef)
    (values : List T) (h : Heap T) :
    w.emplace_bulk values h = w.emplace_back_each values h ∧
    w.emplace_bulk values h
      = values.foldl (fun g value => w.emplace_back_cref value g) h ∧
    w.emplace_bulk [] h = h ∧
    w.emplace_bulk values (h.store w.m_vector [])
      = (h.store w.m_vector []).store w.m_vector
          ((h.store w.m_vector []) w.m_vector ++ values) := by
  refine ⟨?_, ?_, ?_, ?_⟩
  · rw [emplace_bulk_eq, emplace_back_each_eq]
  · rw [emplace_bulk_eq, ← emplace_back_each_eq]
    rfl
  · rw [emplace_bulk_eq, List.append_nil, Heap.store_self]
  · rw [emplace_bulk_eq]

/-! ## Theorems: histories of calls on one reader -/

/-- The explicit element access never fails, and agrees with `next`. -/
theorem nextAccess_eq {T : Type} (r : ReadSynchronizedRef) (value : T) (h : Heap T) :
    r.nextAccess value h = some
      { reader := (r.next value h).1, value := (r.next value h).2.1,
        hasNext := (r.next value h).2.2,
        index := if toSizeT (wrapInt32 (r.m_next + 1)) < (h r.m_vector).length
          then some (toSizeT (wrapInt32 (r.m_next + 1))) else none } := by
  unfold ReadSynchronizedRef.nextAccess ReadSynchronizedRef.next
  dsimp only
  by_cases hlt : toSizeT (wrapInt32 (r.m_next + 1)) < (h r.m_vector).length
  · simp only [hlt, if_true, dite_true, List.getElem?_eq_getElem hlt]
  · simp only [hlt, if_false, dite_false]

theorem ReaderRun.call_reads {T : Type} (st st1 : ReaderRun T) (c : ReaderCall)
    (hc : st.call c = some st1) (hst : ∀ p ∈ st.reads, p.1 < p.2) :
    ∀ p ∈ st1.reads, p.1 < p.2 := by
  cases c with
  | next =>
    unfold ReaderRun.call at hc
    rw [nextAccess_eq] at hc
    dsimp only at hc
    injection hc with hc
    subst hc
    dsimp only
    by_cases hlt : toSizeT (wrapInt32 (st.reader.m_next + 1))
        < (st.heap st.reader.m_vector).length
    · simp only [hlt, if_true]
      intro p hp
      rw [List.mem_append, List.mem_singleton] at hp
      rcases hp with hp | hp
      · exact hst p hp
      · rw [hp]; exact hlt
    · simp only [hlt, if_false]
      exact hst
  | reset vector =>
    unfold ReaderRun.call at hc
    injection hc with hc
    subst hc
    exact hst

theorem ReaderRun.call_isSome {T : Type} (st : ReaderRun T) (c : ReaderCall) :
    ∃ st1, st.call c = some st1 := by
  cases c with
  | next =>
    unfold ReaderRun.call
    rw [nextAccess_eq]
    exact ⟨_, rfl⟩
  | reset vector => exact ⟨_, rfl⟩

theorem ReaderRun.run_reads {T : Type} (calls : List ReaderCall) (st : ReaderRun T)
    (hst : ∀ p ∈ st.reads, p.1 < p.2) :
    ∃ st1, st.run calls = some st1 ∧ ∀ p ∈ st1.reads, p.1 < p.2 := by
  induction calls generalizing st with
  | nil => exact ⟨st, rfl, hst⟩
  | cons c calls ih =>
    obtain ⟨st2, h2⟩ := ReaderRun.call_isSome st c
    rw [ReaderRun.run, h2]
    exact ih st2 (ReaderRun.call_reads st st2 c h2 hst)

/-- C12: for a single caller, every reader state (any cursor value, negative
ones included) and every history of `next` and `reset` calls, the history runs
without an out-of-range access, and every element access it makes uses an
index below the size of the bound vector at that moment; a single `next` reads
at most at the index it has just compared against the size. -/
theorem next_access_in_bounds {T : Type} (h : Heap T) (r : ReadSynchronizedRef)
    (value : T) (calls : List ReaderCall) :
    (∃ st1, ReaderRun.run { heap := h, reader := r, value := value, reads := [] } calls
        = some st1 ∧
      ∀ p ∈ st1.reads, 0 ≤ p.1 ∧ p.1 < p.2) ∧
    (∃ a, r.nextAccess value h = some a ∧
      ∀ i, a.index = some i → 0 ≤ i ∧ i < (h r.m_vector).length) := by
  constructor
  · obtain ⟨st1, h1, h2⟩ := ReaderRun.run_reads calls
      { heap := h, reader := r, value := value, reads := [] }
      (fun p hp => absurd hp (List.not_mem_nil p))
    exact ⟨st1, h1, fun p hp => ⟨Nat.zero_le _, h2 p hp⟩⟩
  · refine ⟨_, nextAccess_eq r value h, ?_⟩
    intro i hi
    dsimp only at hi
    by_cases hlt : toSizeT (wrapInt32 (r.m_next + 1)) < (h r.m_vector).length
    · rw [if_pos hlt] at hi
      injection hi with hi
      rw [← hi]
      exact ⟨Nat.zero_le _, hlt⟩
    · rw [if_neg hlt] at hi
      exact Option.noConfusion hi

/-- C13 (as stated, refuted): after `2 ^ 31` calls on a fresh reader over `[5]`
the cursor is `2 ^ 31 - 1`; the following call of `next` returns false and
leaves the output untouched, but the cursor afterwards is `-2 ^ 31`, not the
old cursor plus one. -/
theorem next_false_wraps_cursor_at_int_max :
    (ReadSynchronizedRef.afterCalls (fun _ => [5]) 7 (2 ^ 31)
        (ReadSynchronizedRef.ctor 0)).m_next = 2 ^ 31 - 1 ∧
    ((ReadSynchronizedRef.afterCalls (fun _ => [5]) 7 (2 ^ 31)
        (ReadSynchronizedRef.ctor 0)).next 7 (fun _ => [5])).2 = (7, false) ∧
    ((ReadSynchronizedRef.afterCalls (fun _ => [5]) 7 (2 ^ 31)
        (ReadSynchronizedRef.ctor 0)).next 7 (fun _ => [5])).1.m_next = -2 ^ 31 ∧
    ((ReadSynchronizedRef.afterCalls (fun _ => [5]) 7 (2 ^ 31)
        (ReadSynchronizedRef.ctor 0)).next 7 (fun _ => [5])).1.m_next
      ≠ (ReadSynchronizedRef.afterCalls (fun _ => [5]) 7 (2 ^ 31)
        (ReadSynchronizedRef.ctor 0)).m_next + 1 := by
  have h1 := afterCalls_start_m_next (fun _ => [5]) 7 (ReadSynchronizedRef.ctor 0)
    (2 ^ 31) rfl (le_refl _)
  have e1 : (((2 ^ 31 : Nat) : Int) - 1) = 2 ^ 31 - 1 := by norm_num
  rw [e1] at h1
  have hw : wrapInt32 ((2 : Int) ^ 31 - 1 + 1) = -2 ^ 31 := by decide
  have hs : ¬ toSizeT (-2 ^ 31) < ([5] : List Nat).length := by decide
  refine ⟨h1, ?_, ?_, ?_⟩
  · rw [next_outcome, h1, hw]
    exact dif_neg hs
  · rw [next_reader]
    dsimp only
    rw [h1, hw]
  · rw [next_reader]
    dsimp only
    rw [h1, hw]
    decide

/-- C13 (amended): whenever `next` returns false the output location holds the
value it held before the call and the reader still refers to the same vector,
while the cursor has still been advanced by the `fetch_add(1)` on a 32-bit
`int`: it is the old cursor plus one for every old cursor below `2 ^ 31 - 1`,
and it wraps to `-2 ^ 31` when the old cursor is `2 ^ 31 - 1`. -/
theorem next_false_keeps_output {T : Type} (r : ReadSynchronizedRef) (value : T)
    (h : Heap T) (hret : (r.next value h).2.2 = false) :
    (r.next value h).2.1 = value ∧
    (r.next value h).1.m_next = wrapInt32 (r.m_next + 1) ∧
    (-2 ^ 31 ≤ r.m_next → r.m_next < 2 ^ 31 - 1 →
      (r.next value h).1.m_next = r.m_next + 1) ∧
    (r.next value h).1.m_vector = r.m_vector ∧
    (r.m_next = 2 ^ 31 - 1 → (r.next value h).1.m_next = -2 ^ 31) := by
  have hout := next_outcome r value h
  have hrd := next_reader r value h
  refine ⟨?_, ?_, ?_, ?_, ?_⟩
  · by_cases hlt : toSizeT (wrapInt32 (r.m_next + 1)) < (h r.m_vector).length
    · rw [hout, dif_pos hlt] at hret
      exact Bool.noConfusion hret
    · rw [hout, dif_neg hlt]
  · rw [hrd]
  · intro h1 h2
    rw [hrd]
    exact wrapInt32_of_range _ (by omega) (by omega)
  · rw [hrd]
  · intro h1
    rw [hrd]
    dsimp only
    rw [h1]
    decide

/-- C13 witness: the second call on a reader over `[5]` returns false, leaves
the output at 7 and moves the cursor from 0 to 1. -/
theorem next_false_keeps_output_witness :
    ((ReadSynchronizedRef.mk 0 0).next 7 (fun _ => [5])).2.2 = false ∧
    ((ReadSynchronizedRef.mk 0 0).next 7 (fun _ => [5])).2.1 = 7 ∧
    ((ReadSynchronizedRef.mk 0 0).next 7 (fun _ => [5])).1.m_next = 0 + 1 :=
  ⟨by decide,
   (next_false_keeps_output (ReadSynchronizedRef.mk 0 0) 7 (fun _ => [5]) (by decide)).1,
   (next_false_keeps_output (ReadSynchronizedRef.mk 0 0) 7 (fun _ => [5]) (by decide)).2.2.1
     (by decide) (by decide)⟩

theorem ReaderRun.run_next_frame {T : Type} (n : Nat) (st : ReaderRun T) :
    ∃ st1, st.run (List.replicate n ReaderCall.next) = some st1 ∧
      st1.heap = st.heap ∧ st1.reader.m_vector = st.reader.m_vector := by
  induction n generalizing st with
  | zero => exact ⟨st, rfl, rfl, rfl⟩
  | succ n ih =>
    have hc : st.call ReaderCall.next = some
        { heap := st.heap, reader := (st.reader.next st.value st.heap).1,
          value := (st.reader.next st.value st.heap).2.1,
          reads := match (if toSizeT (wrapInt32 (st.reader.m_next + 1))
                < (st.heap st.reader.m_vector).length
              then some (toSizeT (wrapInt32 (st.reader.m_next + 1))) else none) with
            | some i => st.reads ++ [(i, (st.heap st.reader.m_vector).length)]
            | none => st.reads } := by
      unfold ReaderRun.call
      rw [nextAccess_eq]
    obtain ⟨st1, h1, h2, h3⟩ := ih
      { heap := st.heap, reader := (st.reader.next st.value st.heap).1,
        value := (st.reader.next st.value st.heap).2.1,
        reads := match (if toSizeT (wrapInt32 (st.reader.m_next + 1))
              < (st.heap st.reader.m_vector).length
            then some (toSizeT (wrapInt32 (st.reader.m_next + 1))) else none) with
          | some i => st.reads ++ [(i, (st.heap st.reader.m_vector).length)]
          | none => st.reads }
    refine ⟨st1, ?_, h2, ?_⟩
    · rw [List.replicate_succ, ReaderRun.run, hc]
      exact h1
    · rw [h3]
      dsimp only
      rw [next_reader]

/-- C14: `next` and `size` never modify the bound vector.  For every memory,
reader and number `n` of `next` calls by a single caller, the memory after the
calls is the memory before them (so the bound vector still equals `s`), the
reader still refers to the same vector, and `size()` returns after the `n`
calls what it returned before them; as `n` is arbitrary this covers every
moment of a traversal. -/
theorem next_and_size_keep_vector {T : Type} (h : Heap T) (r : ReadSynchronizedRef)
    (value : T) (n : Nat) :
    (∃ st1, ReaderRun.run { heap := h, reader := r, value := value, reads := [] }
        (List.replicate n ReaderCall.next) = some st1 ∧
      st1.heap = h ∧ st1.reader.m_vector = r.m_vector ∧
      st1.heap st1.reader.m_vector = h r.m_vector ∧
      st1.reader.size st1.heap = r.size h) ∧
    (ReadSynchronizedRef.afterCalls h value n r).m_vector = r.m_vector ∧
    (ReadSynchronizedRef.afterCalls h value n r).size h = r.size h := by
  constructor
  · obtain ⟨st1, h1, h2, h3⟩ := ReaderRun.run_next_frame n
      { heap := h, reader := r, value := value, reads := [] }
    dsimp only at h2 h3
    refine ⟨st1, h1, h2, h3, ?_, ?_⟩
    · rw [h2, h3]
    · unfold ReadSynchronizedRef.size
      rw [h2, h3]
  · refine ⟨afterCalls_m_vector h value n r, ?_⟩
    unfold ReadSynchronizedRef.size
    rw [afterCalls_m_vector]

/-- The wrapped cursor is harmless: at cursor `2 ^ 31 - 1` the `fetch_add`
wraps to `-2 ^ 31`, which converts to the index `2 ^ 64 - 2 ^ 31`; on a vector
of at most `max_size` elements the bounds test fails and nothing is read. -/
theorem nextAccess_at_wrap {T : Type} (r : ReadSynchronizedRef) (value : T) (h : Heap T)
    (hr : r.m_next = 2 ^ 31 - 1) (hL : (h r.m_vector).length ≤ max_size) :
    r.nextAccess value h = some
      { reader := { r with m_next := -2 ^ 31 }, value := value, hasNext := false,
        index := none } := by
  have hw : wrapInt32 (r.m_next + 1) = -2 ^ 31 := by
    rw [hr]; decide
  have hs : toSizeT (-2 ^ 31) = 2 ^ 64 - 2 ^ 31 := by
    rw [toSizeT_of_neg _ (by omega) (by omega)]; decide
  have hlt : ¬ (2 ^ 64 - 2 ^ 31 < (h r.m_vector).length) := by
    unfold max_size at hL
    omega
  unfold ReadSynchronizedRef.nextAccess
  dsimp only
  rw [hw, hs, if_neg hlt]
